import Mathlib

/-!
Verification of the ALOHA throughput analysis script (script.py).

The script computes S(n, p) = n * p * (1 - p) ^ (2 * (n - 1)) over probability
sweeps and extracts the maximizing point.  We embed the numeric core over the
rationals (the idealization of Python floats used throughout the spec):

* `throughput n p` models `throughput(n, p)`.  In Python the expression
  `(1.0 - p) ** (2 * (n - 1))` raises `ZeroDivisionError` exactly when the
  base is `0.0` and the integer exponent is negative; the `try/except` turns
  that into the NaN sentinel.  We model the float result as `Option ℚ` with
  `none` standing for the NaN sentinel.
* `linspace low high count` models `linspace`.  The step-size expression
  `(high - low) / (count - 1)` raises `ZeroDivisionError` exactly when
  `count = 1` (an uncaught error, modelled as `none`); for every other count
  the list comprehension over `range(count)` is returned.
* `throughput_vectorized` maps `throughput` over a list of probabilities,
  pairing each probability with its throughput value.
* `find_max` filters out NaN points, sorts the remainder by throughput value
  with a stable sort (Python's `sorted` is stable; `List.mergeSort` is the
  stable sort of the Lean library) and takes the last element; indexing `[-1]`
  into an empty list raises `IndexError`, modelled as `none` via `getLast?`.
-/

namespace Script

/-- Embedding of `throughput(n, p)` from script.py lines 18-25.  The result is
`none` exactly when Python would hit the `ZeroDivisionError` branch: a zero
base `1.0 - p` raised to a negative integer exponent. -/
def throughput (n : ℤ) (p : ℚ) : Option ℚ :=
  let e : ℤ := 2 * (n - 1)
  if 0 ≤ e then some ((n : ℚ) * p * (1 - p) ^ e.toNat)
  else if (1 : ℚ) - p = 0 then none
  else some ((n : ℚ) * p * ((1 - p) ^ (-e).toNat)⁻¹)

/-- Embedding of `linspace(low, high, count)` from script.py lines 29-39.
`none` models the uncaught `ZeroDivisionError` when `count - 1 = 0`; Python's
`range(count)` is empty for nonpositive `count`, matching `Int.toNat`. -/
def linspace (low high : ℚ) (count : ℤ) : Option (List ℚ) :=
  if count = 1 then none
  else
    some ((List.range count.toNat).map fun t : ℕ =>
      low + (t : ℚ) * ((high - low) / ((count : ℚ) - 1)))

/-- Embedding of `throughput_vectorized(n, xs)` from script.py lines 41-50. -/
def throughput_vectorized (n : ℤ) (xs : List ℚ) : List (ℚ × Option ℚ) :=
  xs.map fun x => (x, throughput n x)

/-- The filtering step of `find_max`: drop every point whose throughput value
is the NaN sentinel, keeping the remaining points in input order. -/
def filterValid (points : List (ℚ × Option ℚ)) : List (ℚ × ℚ) :=
  points.filterMap fun pt => pt.2.map fun y => (pt.1, y)

/-- The sort key of `find_max`: compare points by their throughput value
(the lambda `key=lambda tup: tup[1]` in script.py line 59). -/
def keyLE (a b : ℚ × ℚ) : Bool := decide (a.2 ≤ b.2)

/-- Embedding of `find_max(points)` from script.py lines 52-59: filter out NaN
points, stable-sort ascending by throughput value, take the last element.
`none` models the `IndexError` raised by `[-1]` on an empty list. -/
def find_max (points : List (ℚ × Option ℚ)) : Option (ℚ × ℚ) :=
  (((filterValid points).mergeSort keyLE).getLast?)

/-- Embedding of the dense sweep `xs = linspace(0.0, 1.0, count=10001)` from
script.py line 62. -/
def xs : Option (List ℚ) := linspace 0 1 10001

/-- For a station count of at least one the exponent `2 * (n - 1)` is
nonnegative, so `throughput` takes the formula branch. -/
theorem throughput_of_one_le (n : ℤ) (p : ℚ) (hn : 1 ≤ n) :
    throughput n p = some ((n : ℚ) * p * (1 - p) ^ (2 * (n - 1)).toNat) := by
  have he : (0 : ℤ) ≤ 2 * (n - 1) := by omega
  simp [throughput, he]

/-- C2: for every integer station count n ≥ 1 and every probability p,
throughput(n, p) equals n * p * (1 - p) ^ (2 * (n - 1)), with the 0 ^ 0 = 1
convention making throughput(1, p) = p for every p. -/
theorem throughput_formula (n : ℤ) (p : ℚ) (hn : 1 ≤ n) :
    throughput n p = some ((n : ℚ) * p * (1 - p) ^ (2 * (n - 1)).toNat) ∧
      throughput 1 p = some p := by
  refine ⟨throughput_of_one_le n p hn, ?_⟩
  have h1 := throughput_of_one_le 1 p le_rfl
  simpa using h1

/-- Witness for C2 at n = 1, p = 0: throughput(1, 0) takes the value of the
formula with exponent zero, namely 0. -/
theorem throughput_formula_witness :
    (1 : ℤ) ≤ 1 ∧
      (throughput 1 0 = some ((1 : ℚ) * 0 * (1 - 0) ^ (2 * ((1 : ℤ) - 1)).toNat) ∧
        throughput 1 0 = some 0) :=
  ⟨le_rfl, (throughput_formula 1 0 le_rfl).1, (throughput_formula 1 0 le_rfl).2⟩

/-- C7: for every station count n > 1, the throughput vanishes at p = 0 and at
p = 1. -/
theorem throughput_boundary (n : ℤ) (hn : 1 < n) :
    throughput n 0 = some 0 ∧ throughput n 1 = some 0 := by
  have h0 := throughput_of_one_le n 0 (le_of_lt hn)
  have h1 := throughput_of_one_le n 1 (le_of_lt hn)
  have hpos : (2 * (n - 1)).toNat ≠ 0 := by omega
  constructor
  · rw [h0]; norm_num
  · rw [h1]; simp [zero_pow hpos]

/-- Witness for C7 at n = 2. -/
theorem throughput_boundary_witness :
    (1 : ℤ) < 2 ∧ throughput 2 0 = some 0 ∧ throughput 2 1 = some 0 :=
  ⟨by norm_num, (throughput_boundary 2 (by norm_num)).1,
    (throughput_boundary 2 (by norm_num)).2⟩

/-- C8 counterexample: the claim says the NaN branch is unreachable for every
input, but throughput(0, 1) evaluates 0.0 to the power -2, which raises
ZeroDivisionError and is converted to the NaN sentinel. -/
theorem throughput_guard_reachable : throughput 0 1 = none := by
  norm_num [throughput]

/-- C8 amended: the zero-division guard is dead code on the documented domain
n ≥ 1 — the NaN branch is taken exactly when n ≤ 0 and p = 1, never for any
n ≥ 1. -/
theorem throughput_guard_characterization (n : ℤ) (p : ℚ) :
    throughput n p = none ↔ n ≤ 0 ∧ p = 1 := by
  unfold throughput
  by_cases he : (0 : ℤ) ≤ 2 * (n - 1)
  · simp only [he, if_true]
    constructor
    · intro h; cases h
    · rintro ⟨hn, -⟩; omega
  · have hn : n ≤ 0 := by omega
    simp only [he, if_false]
    by_cases hp : (1 : ℚ) - p = 0
    · have hp1 : p = 1 := by linarith [sub_eq_zero.mp hp]
      simp [hp, hn, hp1]
    · have hp1 : p ≠ 1 := fun h => hp (by rw [h]; ring)
      simp [hp, hp1]

/-- C10: for every station count n < 1 (so the exponent 2 * (n - 1) is
negative), throughput(n, 1) raises a division by zero internally (0.0 to a
negative power) which is caught and converted to the NaN sentinel. -/
theorem throughput_nan_of_lt_one (n : ℤ) (hn : n < 1) :
    throughput n 1 = none := by
  rw [throughput_guard_characterization]
  exact ⟨by omega, rfl⟩

/-- Witness for C10 at n = 0. -/
theorem throughput_nan_of_lt_one_witness :
    (0 : ℤ) < 1 ∧ throughput 0 1 = none :=
  ⟨by norm_num, throughput_nan_of_lt_one 0 (by norm_num)⟩

/-- C3: when every sample point of the sweep result carries the NaN sentinel,
the filtered list is empty and find_max signals the error (the IndexError of
indexing an empty list) rather than returning a default. -/
theorem find_max_all_nan (points : List (ℚ × Option ℚ))
    (h : ∀ pt ∈ points, pt.2 = none) : find_max points = none := by
  have hF : filterValid points = [] := by
    apply List.filterMap_eq_nil_iff.mpr
    intro pt hpt
    rw [h pt hpt]
    rfl
  rw [find_max, hF, List.mergeSort_nil]
  rfl

/-- Witness for C3 on a one-point all-NaN sweep result. -/
theorem find_max_all_nan_witness :
    (∀ pt ∈ [((0 : ℚ), (none : Option ℚ))], pt.2 = none) ∧
      find_max [((0 : ℚ), (none : Option ℚ))] = none := by
  refine ⟨?_, find_max_all_nan _ ?_⟩ <;> decide

/-- C9 counterexample: the claim says linspace fails for every count < 2, but
with count = 0 the step size divides by -1 (no error) and the comprehension
over the empty range returns the empty list. -/
theorem linspace_count_zero : linspace 0 1 0 = some [] := by
  decide

/-- C9 amended: linspace fails with the uncaught division by zero exactly at
count = 1; for every count ≤ 0 it returns the empty sequence without error. -/
theorem linspace_small_count (low high : ℚ) (count : ℤ) :
    linspace low high 1 = none ∧
      (count ≤ 0 → linspace low high count = some []) := by
  constructor
  · simp [linspace]
  · intro hc
    have hne : count ≠ 1 := by omega
    have h0 : count.toNat = 0 := by omega
    simp [linspace, hne, h0]

/-- Witness for C9 amended at low = 0, high = 1, count = 0. -/
theorem linspace_small_count_witness :
    linspace 0 1 1 = none ∧ ((0 : ℤ) ≤ 0 ∧ linspace 0 1 0 = some []) :=
  ⟨(linspace_small_count 0 1 0).1, le_rfl, (linspace_small_count 0 1 0).2 le_rfl⟩

/-- The sort key of `find_max` is transitive. -/
theorem keyLE_trans (a b c : ℚ × ℚ) : keyLE a b → keyLE b c → keyLE a c := by
  simp only [keyLE, decide_eq_true_eq]
  exact le_trans

/-- The sort key of `find_max` is total. -/
theorem keyLE_total (a b : ℚ × ℚ) : keyLE a b || keyLE b a := by
  simp only [keyLE, Bool.or_eq_true, decide_eq_true_eq]
  exact le_total _ _

/-- Characterization of `find_max` on a sweep result with at least one valid
point: it returns a valid point of maximal throughput value, and among the
points sharing that maximal value it is the last one in input order (the
stable ascending sort keeps tied points in input order, and the last element
of the sorted list is taken). -/
theorem find_max_spec (points : List (ℚ × Option ℚ))
    (h : filterValid points ≠ []) :
    ∃ m, find_max points = some m ∧ m ∈ filterValid points ∧
      (∀ b ∈ filterValid points, b.2 ≤ m.2) ∧
      ((filterValid points).filter fun b => decide (b.2 = m.2)).getLast? =
        some m := by
  set F := filterValid points with hF
  set s := F.mergeSort keyLE with hs
  have hperm : List.Perm s F := List.mergeSort_perm F keyLE
  have hsne : s ≠ [] := by
    intro hnil
    apply h
    have hlen := hperm.length_eq
    rw [hnil] at hlen
    exact List.length_eq_zero.mp hlen.symm
  set z := s.getLast hsne with hz
  have hmem_s : z ∈ s := List.getLast_mem hsne
  have hmem_F : z ∈ F := hperm.mem_iff.mp hmem_s
  have hdecomp : s.dropLast ++ [z] = s := List.dropLast_concat_getLast hsne
  have hsorted : s.Pairwise (fun a b => keyLE a b = true) :=
    List.sorted_mergeSort keyLE_trans keyLE_total F
  have hmax : ∀ b ∈ F, b.2 ≤ z.2 := by
    intro b hb
    have hbs : b ∈ s := hperm.mem_iff.mpr hb
    rw [← hdecomp] at hbs hsorted
    rcases List.mem_append.mp hbs with hb1 | hb2
    · have hp := (List.pairwise_append.mp hsorted).2.2
      have hbz := hp b hb1 z (List.mem_singleton.mpr rfl)
      simpa [keyLE] using hbz
    · have hbz : b = z := List.mem_singleton.mp hb2
      exact hbz ▸ le_refl _
  set P : ℚ × ℚ → Bool := fun b => decide (b.2 = z.2) with hP
  have hpw : (F.filter P).Pairwise (fun a b => keyLE a b = true) := by
    apply List.pairwise_of_forall_mem_list
    intro a ha b hb
    have ha2 : a.2 = z.2 := by simpa [hP] using (List.mem_filter.mp ha).2
    have hb2 : b.2 = z.2 := by simpa [hP] using (List.mem_filter.mp hb).2
    simp [keyLE, ha2, hb2]
  have hsubF : List.Sublist (F.filter P) F := List.filter_sublist F
  have hsub_s : List.Sublist (F.filter P) s :=
    List.sublist_mergeSort keyLE_trans keyLE_total hpw hsubF
  have hfilter_self : (F.filter P).filter P = F.filter P := by
    apply List.filter_eq_self.mpr
    intro a ha
    exact (List.mem_filter.mp ha).2
  have hsub2 := hsub_s.filter P
  rw [hfilter_self] at hsub2
  have hlen2 : (F.filter P).length = (s.filter P).length :=
    ((hperm.filter P).length_eq).symm
  have heqf : F.filter P = s.filter P := hsub2.eq_of_length hlen2
  have hlast : (s.filter P).getLast? = some z := by
    rw [← hdecomp, List.filter_append]
    have hzP : [z].filter P = [z] := by simp [hP]
    rw [hzP, List.getLast?_concat]
  refine ⟨z, ?_, hmem_F, hmax, ?_⟩
  · show s.getLast? = some z
    exact List.getLast?_eq_getLast s hsne
  · show (F.filter fun b => decide (b.2 = z.2)).getLast? = some z
    rw [← hP, heqf, hlast]

/-- C1: on a sweep result with at least one non-NaN point, find_max returns
a non-NaN point of greatest throughput value, and among the points sharing
that maximum value it returns the last one in input order. -/
theorem find_max_last_maximal (points : List (ℚ × Option ℚ))
    (h : filterValid points ≠ []) :
    ∃ m, find_max points = some m ∧ m ∈ filterValid points ∧
      (∀ b ∈ filterValid points, b.2 ≤ m.2) ∧
      ((filterValid points).filter fun b => decide (b.2 = m.2)).getLast? =
        some m :=
  find_max_spec points h

/-- Witness for C1 on a sweep result mixing a NaN point and valid points. -/
theorem find_max_last_maximal_witness :
    filterValid [((0 : ℚ), (none : Option ℚ)), ((1 : ℚ)/2, some (1/2)),
        ((1 : ℚ), some 1)] ≠ [] ∧
      ∃ m, find_max [((0 : ℚ), (none : Option ℚ)), ((1 : ℚ)/2, some (1/2)),
          ((1 : ℚ), some 1)] = some m ∧
        m ∈ filterValid [((0 : ℚ), (none : Option ℚ)), ((1 : ℚ)/2, some (1/2)),
          ((1 : ℚ), some 1)] ∧
        (∀ b ∈ filterValid [((0 : ℚ), (none : Option ℚ)),
          ((1 : ℚ)/2, some (1/2)), ((1 : ℚ), some 1)], b.2 ≤ m.2) ∧
        ((filterValid [((0 : ℚ), (none : Option ℚ)), ((1 : ℚ)/2, some (1/2)),
          ((1 : ℚ), some 1)]).filter fun b => decide (b.2 = m.2)).getLast? =
          some m := by
  constructor
  · simp [filterValid]
  · exact find_max_last_maximal _ (by simp [filterValid])

/-- C5: for low ≤ high and count ≥ 2, linspace returns exactly count numbers,
element i being low + i * (high - low) / (count - 1), so the first element is
low and the last is high. -/
theorem linspace_spec (low high : ℚ) (count : ℤ) (hlh : low ≤ high)
    (hc : 2 ≤ count) :
    ∃ l, linspace low high count = some l ∧
      (l.length : ℤ) = count ∧
      (∀ i : ℕ, ∀ hi : i < l.length,
        l.get ⟨i, hi⟩ = low + (i : ℚ) * ((high - low) / ((count : ℚ) - 1))) ∧
      l.head? = some low ∧ l.getLast? = some high := by
  have hne : count ≠ 1 := by omega
  set L := (List.range count.toNat).map fun t : ℕ =>
    low + (t : ℚ) * ((high - low) / ((count : ℚ) - 1)) with hL
  have hlin : linspace low high count = some L := by
    rw [linspace, if_neg hne]
  have hlen : L.length = count.toNat := by
    rw [hL, List.length_map, List.length_range]
  have hlen' : (L.length : ℤ) = count := by
    rw [hlen]
    omega
  have hget : ∀ i : ℕ, ∀ hi : i < L.length,
      L.get ⟨i, hi⟩ = low + (i : ℚ) * ((high - low) / ((count : ℚ) - 1)) := by
    intro i hi
    simp only [hL, List.get_eq_getElem, List.getElem_map, List.getElem_range]
  have hpos : 0 < L.length := by omega
  have hLne : L ≠ [] := List.ne_nil_of_length_pos hpos
  refine ⟨L, hlin, hlen', hget, ?_, ?_⟩
  · have h0 := hget 0 hpos
    rw [List.get_mk_zero hpos] at h0
    rw [List.head?_eq_head hLne, h0]
    norm_num
  · have hlast : L.getLast? = some (L.get ⟨L.length - 1, by omega⟩) := by
      rw [List.getLast?_eq_getLast L hLne, List.getLast_eq_getElem]
      rfl
    rw [hlast, hget (L.length - 1) (by omega)]
    have hcast : ((L.length - 1 : ℕ) : ℚ) = (count : ℚ) - 1 := by
      have h1 : ((L.length - 1 : ℕ) : ℤ) = count - 1 := by omega
      exact_mod_cast congrArg (fun z : ℤ => (z : ℚ)) h1
    have hne0 : (count : ℚ) - 1 ≠ 0 := by
      have h2 : (2 : ℚ) ≤ (count : ℚ) := by exact_mod_cast hc
      intro habs
      rw [sub_eq_zero] at habs
      rw [habs] at h2
      norm_num at h2
    rw [hcast]
    field_simp

/-- Witness for C5 at low = 0, high = 1, count = 3. -/
theorem linspace_spec_witness :
    (0 : ℚ) ≤ 1 ∧ (2 : ℤ) ≤ 3 ∧
      ∃ l, linspace 0 1 3 = some l ∧
        (l.length : ℤ) = 3 ∧
        (∀ i : ℕ, ∀ hi : i < l.length,
          l.get ⟨i, hi⟩ = 0 + (i : ℚ) * ((1 - 0) / (((3 : ℤ) : ℚ) - 1))) ∧
        l.head? = some 0 ∧ l.getLast? = some 1 :=
  ⟨by norm_num, by norm_num, linspace_spec 0 1 3 (by norm_num) (by norm_num)⟩

/-- For 0 ≤ q ≤ 1 the product (1 - q) * q ^ m is at most 1 / (m + 1): the
geometric sum identity gives (1 - q) * (1 + q + ... + q ^ m) = 1 - q ^ (m+1),
and each of the m + 1 summands is at least q ^ m. -/
theorem one_sub_mul_pow_le (q : ℚ) (m : ℕ) (h0 : 0 ≤ q) (h1 : q ≤ 1) :
    ((m : ℚ) + 1) * ((1 - q) * q ^ m) ≤ 1 := by
  have hsum : ((m : ℚ) + 1) * q ^ m ≤ ∑ i ∈ Finset.range (m + 1), q ^ i := by
    have hterm : ∀ i ∈ Finset.range (m + 1), q ^ m ≤ q ^ i := by
      intro i hi
      exact pow_le_pow_of_le_one h0 h1 (Nat.lt_succ_iff.mp (Finset.mem_range.mp hi))
    calc ((m : ℚ) + 1) * q ^ m = ∑ _i ∈ Finset.range (m + 1), q ^ m := by
          rw [Finset.sum_const, Finset.card_range, nsmul_eq_mul]
          push_cast
          ring
      _ ≤ ∑ i ∈ Finset.range (m + 1), q ^ i := Finset.sum_le_sum hterm
  have hgeom : (1 - q) * ∑ i ∈ Finset.range (m + 1), q ^ i = 1 - q ^ (m + 1) := by
    have hg := geom_sum_mul q (m + 1)
    linear_combination -hg
  have hq : 0 ≤ 1 - q := by linarith
  calc ((m : ℚ) + 1) * ((1 - q) * q ^ m)
      = (1 - q) * (((m : ℚ) + 1) * q ^ m) := by ring
    _ ≤ (1 - q) * ∑ i ∈ Finset.range (m + 1), q ^ i :=
        mul_le_mul_of_nonneg_left hsum hq
    _ = 1 - q ^ (m + 1) := hgeom
    _ ≤ 1 := by
        have hp := pow_nonneg h0 (m + 1)
        linarith

/-- C6: for every integer n ≥ 1 and every p in [0, 1], the throughput value
lies between 0 and 1. -/
theorem throughput_bounds (n : ℤ) (p : ℚ) (hn : 1 ≤ n) (h0 : 0 ≤ p)
    (h1 : p ≤ 1) :
    ∃ s, throughput n p = some s ∧ 0 ≤ s ∧ s ≤ 1 := by
  refine ⟨_, throughput_of_one_le n p hn, ?_, ?_⟩
  · have hn0 : (0 : ℚ) ≤ (n : ℚ) := by exact_mod_cast (by omega : (0 : ℤ) ≤ n)
    exact mul_nonneg (mul_nonneg hn0 h0) (pow_nonneg (by linarith) _)
  · set m := (2 * (n - 1)).toNat with hm
    have hmcast : (m : ℚ) + 1 = 2 * (n : ℚ) - 1 := by
      have h2 : (m : ℤ) = 2 * (n - 1) := Int.toNat_of_nonneg (by omega)
      have h3 : ((m : ℤ) : ℚ) = ((2 * (n - 1) : ℤ) : ℚ) := by rw [h2]
      push_cast at h3
      linarith
    have hncast : (1 : ℚ) ≤ (n : ℚ) := by exact_mod_cast hn
    have hn' : (n : ℚ) ≤ (m : ℚ) + 1 := by rw [hmcast]; linarith
    have hnn : 0 ≤ p * (1 - p) ^ m :=
      mul_nonneg h0 (pow_nonneg (by linarith) m)
    calc (n : ℚ) * p * (1 - p) ^ m
        = (n : ℚ) * (p * (1 - p) ^ m) := by ring
      _ ≤ ((m : ℚ) + 1) * (p * (1 - p) ^ m) :=
          mul_le_mul_of_nonneg_right hn' hnn
      _ = ((m : ℚ) + 1) * ((1 - (1 - p)) * (1 - p) ^ m) := by ring
      _ ≤ 1 := one_sub_mul_pow_le (1 - p) m (by linarith) (by linarith)

/-- Witness for C6 at n = 2, p = 1/2. -/
theorem throughput_bounds_witness :
    (1 : ℤ) ≤ 2 ∧ (0 : ℚ) ≤ 1/2 ∧ (1 : ℚ)/2 ≤ 1 ∧
      ∃ s, throughput 2 (1/2) = some s ∧ 0 ≤ s ∧ s ≤ 1 :=
  ⟨by norm_num, by norm_num, by norm_num,
    throughput_bounds 2 (1/2) (by norm_num) (by norm_num) (by norm_num)⟩

/-- Fuel-indexed divide-and-conquer checker: decides a boolean predicate on
every index in the half-open interval from lo of the given length, splitting
the interval in two so that kernel reduction stays shallow.  When the fuel
runs out, only the empty interval passes. -/
def checkRange (f : ℕ → Bool) : ℕ → ℕ → ℕ → Bool
  | 0, _, len => len == 0
  | _ + 1, lo, 0 => lo == lo
  | _ + 1, lo, 1 => f lo
  | d + 1, lo, (n + 2) =>
      checkRange f d lo ((n + 2) / 2) &&
        checkRange f d (lo + (n + 2) / 2) ((n + 2) - (n + 2) / 2)

/-- Soundness of the interval checker: a successful check establishes the
predicate at every index of the interval. -/
theorem checkRange_sound (f : ℕ → Bool) :
    ∀ (d lo len : ℕ), checkRange f d lo len = true →
      ∀ i, lo ≤ i → i < lo + len → f i = true := by
  intro d
  induction d with
  | zero =>
    intro lo len h i h1 h2
    have hlen : len = 0 := by simpa [checkRange] using h
    omega
  | succ d ih =>
    intro lo len h i h1 h2
    rcases len with _ | len
    · omega
    rcases len with _ | n
    · have hi : i = lo := by omega
      subst hi
      simpa [checkRange] using h
    · simp only [checkRange, Bool.and_eq_true] at h
      obtain ⟨hL, hR⟩ := h
      by_cases hcut : i < lo + (n + 2) / 2
      · exact ih lo ((n + 2) / 2) hL i h1 hcut
      · exact ih (lo + (n + 2) / 2) ((n + 2) - (n + 2) / 2) hR i (by omega)
          (by omega)

/-- Numerator of the throughput value at grid point t of the dense sweep with
n = 2: the value of 10 ^ 12 times S(2, t / 10000). -/
def gridNum (t : ℕ) : ℕ := 2 * t * (10000 - t) ^ 2

set_option maxRecDepth 100000 in
/-- Over the dense grid, the throughput numerators are bounded by the value
at grid point 3333. -/
theorem gridNum_le (t : ℕ) (ht : t < 10001) : gridNum t ≤ 296296294074 := by
  have hchk : checkRange (fun t => decide (gridNum t ≤ 296296294074))
      20 0 10001 = true := by decide
  have hres := checkRange_sound _ 20 0 10001 hchk t (Nat.zero_le t) (by omega)
  exact of_decide_eq_true hres

set_option maxRecDepth 100000 in
/-- Grid point 3333 is the unique dense-sweep grid point attaining the
maximal throughput numerator. -/
theorem gridNum_max_unique (t : ℕ) (ht : t < 10001)
    (he : gridNum t = 296296294074) : t = 3333 := by
  have hchk : checkRange
      (fun t => decide (gridNum t = 296296294074 → t = 3333))
      20 0 10001 = true := by decide
  have hres := checkRange_sound _ 20 0 10001 hchk t (Nat.zero_le t) (by omega)
  exact of_decide_eq_true hres he

/-- On a station count of at least one, the vectorized sweep produces no NaN
point, and the filtering step of find_max keeps every point. -/
theorem filterValid_vectorized (n : ℤ) (hn : 1 ≤ n) (l : List ℚ) :
    filterValid (throughput_vectorized n l) =
      l.map fun x => (x, (n : ℚ) * x * (1 - x) ^ (2 * (n - 1)).toNat) := by
  induction l with
  | nil => rfl
  | cons x xs ih =>
    simp only [throughput_vectorized, List.map_cons] at ih ⊢
    simp only [filterValid, List.filterMap_cons] at ih ⊢
    rw [throughput_of_one_le n x hn]
    simp only [Option.map_some']
    rw [ih]

/-- C4: on the dense sweep of 10001 evenly spaced probabilities with n = 2,
find_max returns the grid point p = 0.3333 with throughput value
0.296296294074 — within the sweep resolution of the analytic optimum
p = 1/3 whose throughput is 2 * (1/3) * (2/3) ^ 2 ≈ 0.2963 — and not the
point (0.5, 0.25). -/
theorem dense_sweep_max :
    ∃ l, linspace 0 1 10001 = some l ∧
      find_max (throughput_vectorized 2 l) =
        some (3333/10000, 148148147037/500000000000) ∧
      |(3333/10000 : ℚ) - 1/3| ≤ 1/10000 ∧
      |(148148147037/500000000000 : ℚ) - 2 * (1/3) * (2/3) ^ 2| ≤ 1/10000 ∧
      ((3333/10000 : ℚ), (148148147037/500000000000 : ℚ)) ≠ (1/2, 1/4) := by
  have hfun : (fun t : ℕ => (0 : ℚ) + (t : ℚ) *
      ((1 - 0) / (((10001 : ℤ) : ℚ) - 1))) = fun t : ℕ => (t : ℚ) / 10000 := by
    funext t
    have hc : (((10001 : ℤ) : ℚ)) = 10001 := by norm_num
    rw [hc]
    norm_num [mul_one_div]
  have hlin : linspace 0 1 10001 =
      some ((List.range 10001).map fun t : ℕ => (t : ℚ) / 10000) := by
    rw [linspace, if_neg (by norm_num : (10001 : ℤ) ≠ 1)]
    rw [show ((10001 : ℤ)).toNat = 10001 from rfl]
    rw [hfun]
  set L : List ℚ := (List.range 10001).map fun t : ℕ => (t : ℚ) / 10000
    with hL
  set ψ : ℕ → ℚ × ℚ := fun t =>
    ((t : ℚ) / 10000, 2 * ((t : ℚ) / 10000) * (1 - (t : ℚ) / 10000) ^ 2)
    with hψ
  have hgfun : (fun x : ℚ =>
      (x, ((2 : ℤ) : ℚ) * x * (1 - x) ^ (2 * ((2 : ℤ) - 1)).toNat)) =
      fun x : ℚ => (x, 2 * x * (1 - x) ^ 2) := by
    funext x
    rw [show (2 * ((2 : ℤ) - 1)).toNat = 2 from rfl]
    norm_num
  have hFmap : filterValid (throughput_vectorized 2 L) =
      (List.range 10001).map ψ := by
    rw [filterValid_vectorized 2 (by norm_num) L, hgfun, hL, List.map_map]
    rfl
  have hval : ∀ t : ℕ, t ≤ 10000 →
      2 * ((t : ℚ) / 10000) * (1 - (t : ℚ) / 10000) ^ 2 =
        (gridNum t : ℚ) / 10 ^ 12 := by
    intro t ht
    rw [gridNum]
    push_cast [Nat.cast_sub ht]
    ring
  have hv : (148148147037/500000000000 : ℚ) = (296296294074 : ℚ) / 10 ^ 12 := by
    norm_num
  have hmem_char : ∀ b, b ∈ (List.range 10001).map ψ ↔
      ∃ t, t < 10001 ∧ ψ t = b := by
    intro b
    simp only [List.mem_map, List.mem_range]
  have hbound : ∀ b ∈ (List.range 10001).map ψ,
      b.2 ≤ (148148147037/500000000000 : ℚ) := by
    intro b hb
    obtain ⟨t, ht, rfl⟩ := (hmem_char b).mp hb
    show 2 * ((t : ℚ) / 10000) * (1 - (t : ℚ) / 10000) ^ 2 ≤ _
    rw [hval t (by omega), hv]
    have hle : (gridNum t : ℚ) ≤ (296296294074 : ℚ) := by
      exact_mod_cast gridNum_le t ht
    exact div_le_div_of_nonneg_right hle (by norm_num)
  have hm0 : ψ 3333 = ((3333/10000 : ℚ), (148148147037/500000000000 : ℚ)) := by
    simp only [hψ]
    rw [hval 3333 (by norm_num)]
    rw [show gridNum 3333 = 296296294074 from by norm_num [gridNum]]
    simp only [Prod.mk.injEq]
    constructor <;> norm_num
  have hm0mem : ((3333/10000 : ℚ), (148148147037/500000000000 : ℚ)) ∈
      (List.range 10001).map ψ := by
    rw [← hm0]
    exact List.mem_map_of_mem ψ (List.mem_range.mpr (by norm_num))
  have huniq : ∀ b ∈ (List.range 10001).map ψ,
      b.2 = (148148147037/500000000000 : ℚ) →
      b = ((3333/10000 : ℚ), (148148147037/500000000000 : ℚ)) := by
    intro b hb hb2
    obtain ⟨t, ht, rfl⟩ := (hmem_char b).mp hb
    have hb2' : 2 * ((t : ℚ) / 10000) * (1 - (t : ℚ) / 10000) ^ 2 =
        (148148147037/500000000000 : ℚ) := hb2
    rw [hval t (by omega), hv] at hb2'
    have hcastq : (gridNum t : ℚ) = (296296294074 : ℚ) := by
      have := congrArg (fun y : ℚ => y * 10 ^ 12) hb2'
      simpa [div_mul_cancel₀] using this
    have hnat : gridNum t = 296296294074 := by exact_mod_cast hcastq
    rw [gridNum_max_unique t ht hnat]
    exact hm0
  have hFne : filterValid (throughput_vectorized 2 L) ≠ [] := by
    rw [hFmap]
    intro hnil
    have hlen := congrArg List.length hnil
    simp at hlen
  obtain ⟨m, hfm, hmem, hmax, -⟩ :=
    find_max_spec (throughput_vectorized 2 L) hFne
  rw [hFmap] at hmem hmax
  have h1 : m.2 ≤ (148148147037/500000000000 : ℚ) := hbound m hmem
  have h2 : (148148147037/500000000000 : ℚ) ≤ m.2 := hmax _ hm0mem
  have h3 : m = ((3333/10000 : ℚ), (148148147037/500000000000 : ℚ)) :=
    huniq m hmem (le_antisymm h1 h2)
  refine ⟨L, hlin, ?_, ?_, ?_, ?_⟩
  · rw [hfm, h3]
  · rw [abs_le]
    constructor <;> norm_num
  · rw [abs_le]
    constructor <;> norm_num
  · intro hpair
    have := congrArg Prod.fst hpair
    norm_num at this

end Script
